import Mathlib

/-!
Formal model of the binary string-table relocation and injection engine.

The definitions below are a shallow embedding of the byte-buffer code in
scripts/extract_from_pointer.py, scripts/inject_from_file.py,
scripts/code_bin_trad_no_extend.py, scripts/patch_exheader.py and
patch_exheader_fixed.py.  A byte buffer (Python bytearray) is a List Nat,
virtual addresses and file offsets are Nat, and signed Python arithmetic
is Int where the source can go negative.  The theorems settle the claimed
properties of these operations.
-/

/-- Python slice assignment data[a:b] = bs on a bytearray with 0 ≤ a ≤ b:
the addressed slice is replaced by bs.  List.take and List.drop clamp at the
buffer length exactly as Python clamps slice indices, and a start beyond the
end inserts at the end, as Python does. -/
def spliceBytes (data : List Nat) (a b : Nat) (bs : List Nat) : List Nat :=
  data.take a ++ bs ++ data.drop (max a b)

/-- Read of the slice data[off : off + n]. -/
def sliceAt (data : List Nat) (off n : Nat) : List Nat :=
  (data.drop off).take n

/-- struct.pack with format <I : the 4-byte little-endian encoding of a
32-bit unsigned value. -/
def le32 (v : Nat) : List Nat :=
  [v % 256, v / 256 % 256, v / 65536 % 256, v / 16777216 % 256]

/-- Virtual base address of code.bin (BASE_ADDR in extract_from_pointer.py
and inject_from_file.py). -/
def BASE_ADDR : Nat := 0x100000

/-- Start of the patched pointer region (PATCH_START in
extract_from_pointer.py). -/
def PATCH_START : Nat := 0x949720

/-- End of the patched pointer region (PATCH_END in
extract_from_pointer.py). -/
def PATCH_END : Nat := 0xB51CD0

theorem length_le32 (v : Nat) : (le32 v).length = 4 := rfl

theorem length_spliceBytes (data : List Nat) (a b : Nat) (bs : List Nat)
    (hb : b = a + bs.length) (h : b ≤ data.length) :
    (spliceBytes data a b bs).length = data.length := by
  subst hb
  simp only [spliceBytes, List.length_append, List.length_take, List.length_drop]
  rw [max_eq_right (Nat.le_add_right a bs.length)]
  omega

theorem getElem?_spliceBytes (data : List Nat) (a b : Nat) (bs : List Nat) (i : Nat)
    (hb : b = a + bs.length) (h : b ≤ data.length) :
    (spliceBytes data a b bs)[i]? =
      if i < a then data[i]? else if i < a + bs.length then bs[i - a]? else data[i]? := by
  subst hb
  have hta : (data.take a).length = a := by
    simp only [List.length_take]
    omega
  have hlen1 : (data.take a ++ bs).length = a + bs.length := by
    rw [List.length_append, hta]
  rw [spliceBytes, max_eq_right (Nat.le_add_right a bs.length)]
  rw [@List.getElem?_append _ (data.take a ++ bs) (data.drop (a + bs.length)) i, hlen1]
  by_cases h2 : i < a + bs.length
  · rw [if_pos h2]
    rw [@List.getElem?_append _ (data.take a) bs i, hta]
    by_cases h1 : i < a
    · rw [if_pos h1, if_pos h1, List.getElem?_take, if_pos h1]
    · rw [if_neg h1, if_neg h1, if_pos h2]
  · rw [if_neg h2, if_neg (by omega : ¬ i < a), if_neg h2, List.getElem?_drop]
    congr 1
    omega

theorem getElem?_spliceBytes_frame (data : List Nat) (a b : Nat) (bs : List Nat) (i : Nat)
    (hb : b = a + bs.length) (h : b ≤ data.length) (hi : i < a ∨ b ≤ i) :
    (spliceBytes data a b bs)[i]? = data[i]? := by
  rw [getElem?_spliceBytes data a b bs i hb h]
  rcases hi with h1 | h1
  · rw [if_pos h1]
  · rw [if_neg (by omega), if_neg (by omega)]

theorem getElem?_sliceAt (data : List Nat) (off n i : Nat) :
    (sliceAt data off n)[i]? = if i < n then data[off + i]? else none := by
  rw [sliceAt, List.getElem?_take]
  by_cases h : i < n
  · rw [if_pos h, if_pos h, List.getElem?_drop]
  · rw [if_neg h, if_neg h]

theorem sliceAt_spliceBytes_self (data : List Nat) (a b : Nat) (bs : List Nat)
    (hb : b = a + bs.length) (h : b ≤ data.length) :
    sliceAt (spliceBytes data a b bs) a bs.length = bs := by
  apply List.ext_getElem?
  intro i
  rw [getElem?_sliceAt]
  by_cases h1 : i < bs.length
  · rw [if_pos h1, getElem?_spliceBytes data a b bs (a + i) hb h]
    rw [if_neg (by omega), if_pos (by omega)]
    congr 1
    omega
  · rw [if_neg h1]
    exact (List.getElem?_eq_none (by omega)).symm

theorem sliceAt_spliceBytes_frame (data : List Nat) (a b : Nat) (bs : List Nat)
    (c n : Nat) (hb : b = a + bs.length) (h : b ≤ data.length)
    (hdisj : c + n ≤ a ∨ b ≤ c) :
    sliceAt (spliceBytes data a b bs) c n = sliceAt data c n := by
  apply List.ext_getElem?
  intro i
  rw [getElem?_sliceAt, getElem?_sliceAt]
  by_cases h1 : i < n
  · rw [if_pos h1, if_pos h1]
    exact getElem?_spliceBytes_frame data a b bs (c + i) hb h (by omega)
  · rw [if_neg h1, if_neg h1]

/-! ## Header size patcher

Embedding of patch_exheader (scripts/patch_exheader.py lines 5-27; the same
computation appears in patch_exheader_fixed.py lines 12-77).  File sizes are
naturals; the delta and the derived size fields are signed, as in Python. -/

/-- Implements round_up_0x1000: the Python expression (val + 0xFFF) & ~0xFFF
clears the low 12 bits of val + 0xFFF, which over unbounded signed integers
is subtraction of the floor remainder modulo 0x1000. -/
def round_up_0x1000 (val : Int) : Int :=
  (val + 0xFFF) - (val + 0xFFF) % 0x1000

/-- Fixed data + bss base size from the exheader (0x001BBF78 + 0x001E16FC). -/
def base_data_size : Int := 0x001BBF78 + 0x001E16FC

/-- The code-size value computed from the patched binary's file size
(code_size in patch_exheader). -/
def new_code_size (size_patched : Nat) : Int :=
  round_up_0x1000 (size_patched : Int)

/-- The data-size value: base data + bss size plus the growth delta,
page aligned (new_data_size in patch_exheader). -/
def new_data_size (size_padded size_patched : Nat) : Int :=
  round_up_0x1000 (base_data_size + ((size_patched : Int) - (size_padded : Int)))

/-- The physical-page count written at offset 0x34 (pages in
patch_exheader). -/
def pages (size_padded size_patched : Nat) : Int :=
  new_data_size size_padded size_patched / 0x1000

/-- First header write: code text size packed <I at offset 0x00. -/
def exheader_w1 (ex : List Nat) (size_patched : Nat) : List Nat :=
  spliceBytes ex 0x00 0x04 (le32 (new_code_size size_patched).toNat)

/-- Second header write: read-only code size zeroed at offset 0x08. -/
def exheader_w2 (ex : List Nat) (size_patched : Nat) : List Nat :=
  spliceBytes (exheader_w1 ex size_patched) 0x08 0x0C (le32 0)

/-- Third header write: data size packed <I at offset 0x0C. -/
def exheader_w3 (ex : List Nat) (size_padded size_patched : Nat) : List Nat :=
  spliceBytes (exheader_w2 ex size_patched) 0x0C 0x10
    (le32 (new_data_size size_padded size_patched).toNat)

/-- The header writes of patch_exheader: code text size at 0x00, read-only
code size zeroed at 0x08, data size at 0x0C, physical page count at 0x34,
each packed as a 4-byte little-endian value. -/
def patch_exheader (ex : List Nat) (size_padded size_patched : Nat) : List Nat :=
  spliceBytes (exheader_w3 ex size_padded size_patched) 0x34 0x38
    (le32 (pages size_padded size_patched).toNat)

theorem le_round_up_0x1000 (v : Int) : v ≤ round_up_0x1000 v := by
  simp only [round_up_0x1000]
  omega

theorem round_up_0x1000_emod (v : Int) : round_up_0x1000 v % 0x1000 = 0 := by
  simp only [round_up_0x1000]
  omega

theorem exheader_w1_length (ex : List Nat) (size_patched : Nat)
    (hex : 0x38 ≤ ex.length) :
    (exheader_w1 ex size_patched).length = ex.length :=
  length_spliceBytes ex 0x00 0x04 (le32 (new_code_size size_patched).toNat) rfl (by omega)

theorem exheader_w2_length (ex : List Nat) (size_patched : Nat)
    (hex : 0x38 ≤ ex.length) :
    (exheader_w2 ex size_patched).length = ex.length := by
  have h1 := exheader_w1_length ex size_patched hex
  rw [exheader_w2, length_spliceBytes (exheader_w1 ex size_patched) 0x08 0x0C (le32 0) rfl
    (by rw [h1]; omega), h1]

theorem exheader_w3_length (ex : List Nat) (size_padded size_patched : Nat)
    (hex : 0x38 ≤ ex.length) :
    (exheader_w3 ex size_padded size_patched).length = ex.length := by
  have h2 := exheader_w2_length ex size_patched hex
  rw [exheader_w3, length_spliceBytes (exheader_w2 ex size_patched) 0x0C 0x10
    (le32 (new_data_size size_padded size_patched).toNat) rfl (by rw [h2]; omega), h2]

/-- C4: for a non-negative size delta, the header patch declares a code size
at least the original size plus the delta, the declared code size is a
multiple of the page size 0x1000 (rounded upward), and the page-count field
written at offset 0x34 equals the new data size divided by the page size. -/
theorem C4_exheader_sizes (ex : List Nat) (size_padded size_patched : Nat)
    (hdelta : size_padded ≤ size_patched) (hex : 0x38 ≤ ex.length) :
    ((size_padded : Int) + ((size_patched : Int) - (size_padded : Int))
        ≤ new_code_size size_patched) ∧
    new_code_size size_patched % 0x1000 = 0 ∧
    pages size_padded size_patched * 0x1000 = new_data_size size_padded size_patched ∧
    sliceAt (patch_exheader ex size_padded size_patched) 0x34 4
      = le32 (pages size_padded size_patched).toNat := by
  refine ⟨?_, round_up_0x1000_emod _, ?_, ?_⟩
  · have h1 : (size_padded : Int) + ((size_patched : Int) - (size_padded : Int))
        = (size_patched : Int) := by ring
    rw [new_code_size, h1]
    exact le_round_up_0x1000 _
  · simp only [pages, new_data_size, base_data_size, round_up_0x1000]
    omega
  · have h3 := exheader_w3_length ex size_padded size_patched hex
    have h4 := sliceAt_spliceBytes_self (exheader_w3 ex size_padded size_patched) 0x34 0x38
      (le32 (pages size_padded size_patched).toNat) rfl (by rw [h3]; omega)
    rw [patch_exheader]
    exact h4

/-- Witness for C4 at a concrete header and sizes. -/
theorem C4_exheader_sizes_witness :
    (((0 : Nat) : Int) + (((0x1000 : Nat) : Int) - ((0 : Nat) : Int))
        ≤ new_code_size 0x1000) ∧
    new_code_size 0x1000 % 0x1000 = 0 ∧
    pages 0 0x1000 * 0x1000 = new_data_size 0 0x1000 ∧
    sliceAt (patch_exheader (List.replicate 0x38 0) 0 0x1000) 0x34 4
      = le32 (pages 0 0x1000).toNat :=
  C4_exheader_sizes (List.replicate 0x38 0) 0 0x1000 (by decide) (by decide)

/-- C10: on every invocation the header patcher writes 0 into the 4-byte
read-only code size field at offset 0x08, regardless of its inputs. -/
theorem C10_ro_size_zeroed (ex : List Nat) (size_padded size_patched : Nat)
    (hex : 0x38 ≤ ex.length) :
    sliceAt (patch_exheader ex size_padded size_patched) 0x08 4 = le32 0 := by
  have h1 := exheader_w1_length ex size_patched hex
  have h2 := exheader_w2_length ex size_patched hex
  have h3 := exheader_w3_length ex size_padded size_patched hex
  rw [patch_exheader, sliceAt_spliceBytes_frame (exheader_w3 ex size_padded size_patched)
    0x34 0x38 (le32 (pages size_padded size_patched).toNat) 0x08 4 rfl
    (by rw [h3]; omega) (by omega)]
  rw [exheader_w3, sliceAt_spliceBytes_frame (exheader_w2 ex size_patched) 0x0C 0x10
    (le32 (new_data_size size_padded size_patched).toNat) 0x08 4 rfl
    (by rw [h2]; omega) (by omega)]
  rw [exheader_w2]
  have h4 := sliceAt_spliceBytes_self (exheader_w1 ex size_patched) 0x08 0x0C (le32 0) rfl
    (by rw [h1]; omega)
  exact h4

/-- Witness for C10 at a concrete header and sizes. -/
theorem C10_ro_size_zeroed_witness :
    sliceAt (patch_exheader (List.replicate 0x38 7) 5 9) 0x08 4 = le32 0 :=
  C10_ro_size_zeroed (List.replicate 0x38 7) 5 9 (by decide)

/-! ## Pointer table construction

Embedding of load_and_group_pointers and the validity filter plus extent
derivation of extract_strings (scripts/extract_from_pointer.py lines 32-69). -/

/-- Membership of a two-byte run in SEP_BYTES (is_separator in
extract_from_pointer.py): the pair is 00 00 or FF FF. -/
def is_sep_pair (a b : Nat) : Bool :=
  (a == 0x00 && b == 0x00) || (a == 0xFF && b == 0xFF)

/-- Test that two bytes exist at position p of the buffer and form a
separator pair (is_separator applied to the slice data[p:p+2]); a short
slice is never in SEP_BYTES. -/
def sep_pair_at (data : List Nat) (p : Nat) : Bool :=
  match data[p]?, data[p + 1]? with
  | some a, some b => is_sep_pair a b
  | _, _ => false

/-- Append one pointer offset to the entry of its target value, keeping
first-insertion order of values (ptr_map.setdefault(val, []).append(off)). -/
def insertPtr (m : List (Nat × List Nat)) (val off : Nat) : List (Nat × List Nat) :=
  match m with
  | [] => [(val, [off])]
  | (v, offs) :: rest =>
      if v = val then (v, offs ++ [off]) :: rest
      else (v, offs) :: insertPtr rest val off

/-- The in-range grouping loop of load_and_group_pointers (lines 36-46) over
already-parsed (offset, value) rows; CSV decoding, the header-row skip and
rows failing hex parsing are upstream of this model. -/
def buildPtrMap (rows : List (Nat × Nat)) : List (Nat × List Nat) :=
  rows.foldl
    (fun m row =>
      if PATCH_START ≤ row.2 ∧ row.2 < PATCH_END then insertPtr m row.2 row.1 else m)
    []

/-- Final normalisation of load_and_group_pointers (line 47): entries sorted
by target value, each offset group sorted ascending. -/
def load_and_group_pointers (rows : List (Nat × Nat)) : List (Nat × List Nat) :=
  (List.insertionSort (fun p q => p.1 ≤ q.1) (buildPtrMap rows)).map
    (fun e => (e.1, List.insertionSort (· ≤ ·) e.2))

/-- The strict two-byte utf-16le decode of data[fo:fo+2] with printability
check (extract_strings lines 58-63).  A full pair decodes iff its code unit
is not a surrogate; an empty slice decodes to the empty string, which counts
as printable; a single trailing byte raises and is rejected.  The Unicode
printability table is external data, so it is a parameter. -/
def decodes_printable (printable : Nat → Bool) (data : List Nat) (fo : Nat) : Bool :=
  match data[fo]?, data[fo + 1]? with
  | some a, some b =>
      let u := a + 256 * b
      if 0xD800 ≤ u ∧ u < 0xE000 then false else printable u
  | some _, none => false
  | none, _ => true

/-- The per-target validity test of extract_strings (lines 55-63): at least
two bytes precede the target offset and form a separator pair, and the two
bytes at the target decode to a printable character unit. -/
def valid_target (printable : Nat → Bool) (data : List Nat) (val : Nat) : Bool :=
  let fo := val - BASE_ADDR
  if fo < 2 ∨ sep_pair_at data (fo - 2) = false then false
  else decodes_printable printable data fo

/-- The validity loop of extract_strings (lines 53-64): targets failing the
checks are skipped with continue. -/
def valid_vals (printable : Nat → Bool) (data : List Nat) : List Nat → List Nat
  | [] => []
  | v :: rest =>
      if valid_target printable data v then v :: valid_vals printable data rest
      else valid_vals printable data rest

/-- Extent derivation of extract_strings (lines 67-69): for index i the
extent starts at the i-th value minus BASE_ADDR and ends at the next value
minus BASE_ADDR, or at PATCH_END - BASE_ADDR for the last one. -/
def extents : List Nat → List (Nat × Nat)
  | [] => []
  | [v] => [(v - BASE_ADDR, PATCH_END - BASE_ADDR)]
  | v :: w :: rest => (v - BASE_ADDR, w - BASE_ADDR) :: extents (w :: rest)

/-- Strict ascending order of a list of addresses, as a decidable test. -/
def strictAsc : List Nat → Bool
  | [] => true
  | [_] => true
  | a :: b :: rest => a < b && strictAsc (b :: rest)

/-- Decidable statement that exts partitions the half-open interval from lo
to hi into contiguous, non-overlapping, ascending nonempty ranges: the first
range starts at lo, every range is nonempty, each range ends where the next
begins, and the last one ends at hi. -/
def is_partition_of (exts : List (Nat × Nat)) (lo hi : Nat) : Bool :=
  match exts with
  | [] => lo == hi
  | (a, b) :: rest => a == lo && a < b && is_partition_of rest b hi

/-- The final range bound of a partition is at most hi and lo ≤ hi. -/
theorem partition_hi_le (exts : List (Nat × Nat)) (lo hi : Nat)
    (h : is_partition_of exts lo hi = true) : lo ≤ hi := by
  induction exts generalizing lo with
  | nil =>
    simp only [is_partition_of, beq_iff_eq] at h
    omega
  | cons e rest ih =>
    obtain ⟨a, b⟩ := e
    simp only [is_partition_of, Bool.and_eq_true, beq_iff_eq, decide_eq_true_eq] at h
    obtain ⟨⟨ha, hab⟩, hrest⟩ := h
    have := ih b hrest
    omega

/-- Sanity of the partition predicate: a partition covers exactly the
half-open interval from lo to hi, each point by some range. -/
theorem is_partition_of_cover (exts : List (Nat × Nat)) (lo hi : Nat)
    (h : is_partition_of exts lo hi = true) (x : Nat) :
    (lo ≤ x ∧ x < hi) ↔ ∃ e ∈ exts, e.1 ≤ x ∧ x < e.2 := by
  induction exts generalizing lo with
  | nil =>
    simp only [is_partition_of, beq_iff_eq] at h
    subst h
    simp only [List.not_mem_nil, false_and, exists_false, iff_false]
    omega
  | cons e rest ih =>
    obtain ⟨a, b⟩ := e
    simp only [is_partition_of, Bool.and_eq_true, beq_iff_eq, decide_eq_true_eq] at h
    obtain ⟨⟨ha, hab⟩, hrest⟩ := h
    subst ha
    constructor
    · rintro ⟨h1, h2⟩
      by_cases hx : x < b
      · exact ⟨(a, b), List.mem_cons_self _ _, h1, hx⟩
      · obtain ⟨e', he', hcov⟩ := (ih b hrest).mp ⟨by omega, h2⟩
        exact ⟨e', List.mem_cons_of_mem _ he', hcov⟩
    · rintro ⟨e', he', h1, h2⟩
      rcases List.mem_cons.mp he' with rfl | he'
      · have := partition_hi_le rest b hi hrest
        omega
      · have := (ih b hrest).mpr ⟨e', he', h1, h2⟩
        omega

theorem extents_length (vals : List Nat) : (extents vals).length = vals.length := by
  induction vals with
  | nil => rfl
  | cons v rest ih =>
    cases rest with
    | nil => rfl
    | cons w rest' =>
      simp only [extents, List.length_cons] at ih ⊢
      omega

theorem extents_partition (v : Nat) (rest : List Nat)
    (hsorted : strictAsc (v :: rest) = true)
    (hlo : PATCH_START ≤ v) (hhi : ∀ u ∈ v :: rest, u < PATCH_END) :
    is_partition_of (extents (v :: rest)) (v - BASE_ADDR) (PATCH_END - BASE_ADDR) = true := by
  induction rest generalizing v with
  | nil =>
    have hv : v < PATCH_END := hhi v (List.mem_singleton.mpr rfl)
    have hB : BASE_ADDR < PATCH_START := by decide
    simp only [extents, is_partition_of, Bool.and_eq_true, beq_iff_eq, decide_eq_true_eq]
    refine ⟨⟨trivial, ?_⟩, trivial⟩
    omega
  | cons w rest' ih =>
    have hB : BASE_ADDR < PATCH_START := by decide
    simp only [strictAsc, Bool.and_eq_true, decide_eq_true_eq] at hsorted
    obtain ⟨hvw, hsorted'⟩ := hsorted
    have hw : PATCH_START ≤ w := by omega
    have hhi' : ∀ u ∈ w :: rest', u < PATCH_END := fun u hu =>
      hhi u (List.mem_cons_of_mem _ hu)
    have htail := ih w hsorted' hw hhi'
    simp only [extents, is_partition_of, Bool.and_eq_true, beq_iff_eq, decide_eq_true_eq]
    refine ⟨⟨trivial, by omega⟩, ?_⟩
    cases rest' with
    | nil => exact htail
    | cons x rest'' => exact htail

/-- C1 fails as stated: a pointer table whose single target address lies
strictly inside the region yields one extent that covers only from the
target to the region end, so the extents do not partition the whole region
from region_start. -/
theorem C1_counterexample :
    strictAsc [0x949730] = true ∧
    (∀ u ∈ [0x949730], PATCH_START ≤ u ∧ u < PATCH_END) ∧
    (extents [0x949730]).length = 1 ∧
    is_partition_of (extents [0x949730]) (PATCH_START - BASE_ADDR) (PATCH_END - BASE_ADDR)
      = false := by
  refine ⟨by decide, by decide, by decide, by decide⟩

/-- C1 amended: for a nonempty, strictly ascending table of target addresses
inside the region, the derived extents form exactly one range per address
and partition the half-open interval from the first (lowest) target address
to region_end into contiguous, non-overlapping, ascending nonempty ranges;
the end of each extent is the next target address, or region_end for the
last.  The partition begins at the lowest target address, not at
region_start as the claim stated. -/
theorem C1_extents_partition (v : Nat) (rest : List Nat)
    (hsorted : strictAsc (v :: rest) = true)
    (hrange : ∀ u ∈ v :: rest, PATCH_START ≤ u ∧ u < PATCH_END) :
    (extents (v :: rest)).length = (v :: rest).length ∧
    is_partition_of (extents (v :: rest)) (v - BASE_ADDR) (PATCH_END - BASE_ADDR) = true :=
  ⟨extents_length (v :: rest),
   extents_partition v rest hsorted (hrange v (List.mem_cons_self v rest)).1
     (fun u hu => (hrange u hu).2)⟩

/-- Witness for the amended C1 at a concrete two-entry table. -/
theorem C1_extents_partition_witness :
    (extents [0x949720, 0x949724]).length = ([0x949720, 0x949724] : List Nat).length ∧
    is_partition_of (extents [0x949720, 0x949724]) (0x949720 - BASE_ADDR)
      (PATCH_END - BASE_ADDR) = true :=
  C1_extents_partition 0x949720 [0x949724] (by decide) (by decide)

/-! ## String codec

Embedding of the utf-16le codec used by decode_utf16le and encode_utf16le
(scripts/code_bin_trad_no_extend.py lines 51-56).  Text is a list of Unicode
scalar values. -/

/-- Python text.encode with the utf-16le codec: each basic-plane scalar
becomes two little-endian bytes; an astral scalar becomes a surrogate pair
of four bytes. -/
def encode_utf16le : List Nat → List Nat
  | [] => []
  | c :: cs =>
      if c < 0x10000 then c % 256 :: c / 256 :: encode_utf16le cs
      else
        let v := c - 0x10000
        let hi := 0xD800 + v / 0x400
        let lo := 0xDC00 + v % 0x400
        hi % 256 :: hi / 256 :: lo % 256 :: lo / 256 :: encode_utf16le cs

/-- Grouping of a byte stream into 16-bit little-endian code units; a
trailing odd byte cannot form a unit and is dropped, as Python's utf-16le
decoder with errors ignore does. -/
def pairUnits : List Nat → List Nat
  | b0 :: b1 :: rest => (b0 + 256 * b1) :: pairUnits rest
  | _ => []

/-- Decoding of a code-unit stream with errors ignore: a non-surrogate unit
is a scalar, a high surrogate followed by a low surrogate combines into an
astral scalar, and a lone surrogate is dropped silently. -/
def unitsToText : List Nat → List Nat
  | u :: u2 :: rest =>
      if u < 0xD800 ∨ 0xE000 ≤ u then u :: unitsToText (u2 :: rest)
      else if u < 0xDC00 then
        if 0xDC00 ≤ u2 ∧ u2 < 0xE000 then
          (0x10000 + (u - 0xD800) * 0x400 + (u2 - 0xDC00)) :: unitsToText rest
        else unitsToText (u2 :: rest)
      else unitsToText (u2 :: rest)
  | [u] => if u < 0xD800 ∨ 0xE000 ≤ u then [u] else []
  | [] => []
termination_by l => l.length
decreasing_by
  all_goals simp only [List.length_cons]
  all_goals omega

/-- Python bytes.decode with the utf-16le codec and errors ignore
(decode_utf16le in code_bin_trad_no_extend.py): bytes are paired into
little-endian code units, then units are decoded permissively. -/
def decode_utf16le (bs : List Nat) : List Nat :=
  unitsToText (pairUnits bs)

theorem pairUnits_encode (text : List Nat) (h : ∀ c ∈ text, c < 0x10000) :
    pairUnits (encode_utf16le text) = text := by
  induction text with
  | nil => rfl
  | cons c cs ih =>
    have hc := h c (List.mem_cons_self c cs)
    have hcs : ∀ x ∈ cs, x < 0x10000 := fun x hx => h x (List.mem_cons_of_mem _ hx)
    have hu : c % 256 + 256 * (c / 256) = c := Nat.mod_add_div c 256
    simp only [encode_utf16le]
    rw [if_pos hc, pairUnits, hu, ih hcs]

theorem unitsToText_of_no_surrogate (text : List Nat)
    (h : ∀ c ∈ text, c < 0xD800 ∨ 0xE000 ≤ c) :
    unitsToText text = text := by
  induction text with
  | nil => simp [unitsToText]
  | cons c cs ih =>
    have hc := h c (List.mem_cons_self c cs)
    have hcs : ∀ x ∈ cs, x < 0xD800 ∨ 0xE000 ≤ x := fun x hx =>
      h x (List.mem_cons_of_mem _ hx)
    cases cs with
    | nil => rw [unitsToText, if_pos hc]
    | cons c2 cs2 =>
      rw [unitsToText, if_pos hc, ih hcs]

/-- C7: decoding the encoding returns the text unchanged for every text
composed solely of representable 2-byte character units, that is scalars of
the basic plane that are not surrogates. -/
theorem C7_codec_roundtrip (text : List Nat)
    (h : ∀ c ∈ text, c < 0x10000 ∧ (c < 0xD800 ∨ 0xE000 ≤ c)) :
    decode_utf16le (encode_utf16le text) = text := by
  rw [decode_utf16le, pairUnits_encode text (fun c hc => (h c hc).1),
    unitsToText_of_no_surrogate text (fun c hc => (h c hc).2)]

/-- Witness for C7 on the two-character text Hi. -/
theorem C7_codec_roundtrip_witness :
    (∀ c ∈ [0x48, 0x69], c < 0x10000 ∧ (c < 0xD800 ∨ 0xE000 ≤ c)) ∧
    decode_utf16le (encode_utf16le [0x48, 0x69]) = [0x48, 0x69] :=
  ⟨by decide, C7_codec_roundtrip [0x48, 0x69] (by decide)⟩

/-! ## Relocation and pointer rewriting

Embedding of the per-entry step of main in scripts/inject_from_file.py
(lines 36-59): each owning pointer of the entry is rewritten to the new
relocation address, then the payload block is appended at the end of the
buffer.  The replacement text encoding and separator parsing feeding the
block are upstream of this model. -/

/-- One pointer rewrite (lines 49-56): the virtual address is converted to a
file offset; an offset outside the buffer is reported and skipped with
continue, otherwise the 4 bytes at the offset become the new address packed
little-endian.  The offset arithmetic is signed, as in Python. -/
def rewritePointer (data : List Nat) (newAddr addrVirt : Nat) : List Nat :=
  let off : Int := (addrVirt : Int) - (BASE_ADDR : Int)
  if off < 0 ∨ off + 4 > data.length then data
  else spliceBytes data off.toNat (off.toNat + 4) (le32 newAddr)

/-- The per-entry step (lines 41-59): new_addr is the base address plus the
cursor, every owning pointer is rewritten, and the block is appended; the
result carries the new buffer, the new cursor, and the address handed out
for this entry. -/
def processEntry (data : List Nat) (cursor : Nat) (ptrOffsets : List Nat)
    (block : List Nat) : List Nat × Nat × Nat :=
  let newAddr := BASE_ADDR + cursor
  let data1 := ptrOffsets.foldl (fun d a => rewritePointer d newAddr a) data
  (data1 ++ block, cursor + block.length, newAddr)

theorem length_rewritePointer (data : List Nat) (newAddr addrVirt : Nat) :
    (rewritePointer data newAddr addrVirt).length = data.length := by
  rw [rewritePointer]
  split
  · rfl
  · rename_i hcond
    push_neg at hcond
    have h4 : ((addrVirt : Int) - (BASE_ADDR : Int)).toNat + 4 ≤ data.length := by
      omega
    exact length_spliceBytes data _ _ (le32 newAddr) rfl h4

theorem length_foldl_rewritePointer (ptrOffsets : List Nat) (data : List Nat)
    (newAddr : Nat) :
    (ptrOffsets.foldl (fun d a => rewritePointer d newAddr a) data).length
      = data.length := by
  induction ptrOffsets generalizing data with
  | nil => rfl
  | cons p ps ih =>
    rw [List.foldl_cons, ih, length_rewritePointer]

/-- C2: the relocation append writes the payload at the current end of the
buffer, increases the buffer length by exactly the payload length, and the
address handed out equals the base address plus the length before the
append.  The cursor equals the buffer length on entry, as main maintains. -/
theorem C2_relocation_append (data : List Nat) (cursor : Nat)
    (ptrOffsets : List Nat) (block : List Nat) (hcur : cursor = data.length) :
    (processEntry data cursor ptrOffsets block).1.length = data.length + block.length ∧
    (processEntry data cursor ptrOffsets block).1.drop data.length = block ∧
    (processEntry data cursor ptrOffsets block).2.2 = BASE_ADDR + data.length := by
  subst hcur
  have hlen := length_foldl_rewritePointer ptrOffsets data (BASE_ADDR + data.length)
  refine ⟨?_, ?_, rfl⟩
  · simp only [processEntry, List.length_append, hlen]
  · simp only [processEntry]
    exact List.drop_left' hlen

/-- Witness for C2 at a concrete image and entry. -/
theorem C2_relocation_append_witness :
    (processEntry [1, 2, 3, 4] 4 [0x100000] [9, 9]).1.length
        = ([1, 2, 3, 4] : List Nat).length + ([9, 9] : List Nat).length ∧
    (processEntry [1, 2, 3, 4] 4 [0x100000] [9, 9]).1.drop
        ([1, 2, 3, 4] : List Nat).length = [9, 9] ∧
    (processEntry [1, 2, 3, 4] 4 [0x100000] [9, 9]).2.2
        = BASE_ADDR + ([1, 2, 3, 4] : List Nat).length :=
  C2_relocation_append [1, 2, 3, 4] 4 [0x100000] [9, 9] (by decide)

/-! ## In-place patcher

Embedding of extract_string and the per-entry body of patch_binary
(scripts/code_bin_trad_no_extend.py lines 42-48 and 105-130).  The
translation service is external: the replacement text is a parameter. -/

/-- The scan of extract_string (lines 42-48): advance two bytes at a time
from the offset until a separator pair starts (the separator regex matches
the head of data[end:end+4] exactly when the two bytes at end are 00 00 or
FF FF) or the end of the buffer is reached. -/
def findStringEnd (data : List Nat) (e : Nat) : Nat :=
  if h : e + 1 < data.length then
    if sep_pair_at data e then e else findStringEnd data (e + 2)
  else e
termination_by data.length - e
decreasing_by omega

/-- The separator run matched at a position (line 115): the maximal run of
whole separator pairs starting there, as the regex matches on data[end:]. -/
def sepRunFrom (data : List Nat) (e : Nat) : List Nat :=
  if h : e + 1 < data.length then
    if is_sep_pair (data.getD e 0) (data.getD (e + 1) 0) then
      data.getD e 0 :: data.getD (e + 1) 0 :: sepRunFrom data (e + 2)
    else []
  else []
termination_by data.length - e
decreasing_by omega

/-- Size adjustment of the encoded translation (lines 118-124): truncate
when longer than the original bytes, pad with 0x20 0x00 space units when
shorter. -/
def adjustToOriginal (translated : List Nat) (origLen : Nat) : List Nat :=
  if origLen < translated.length then translated.take origLen
  else if translated.length < origLen then
    translated
      ++ (List.replicate ((origLen - translated.length) / 2) ([0x20, 0x00] : List Nat)).flatten
  else translated

/-- One in-place patch step of patch_binary (lines 105-130): the original
extent is found by the separator scan, the encoded translation is fitted to
the extent length and written over it, and the separator run found after
the extent is written back at its own place when nonempty. -/
def patchAt (data : List Nat) (offset : Nat) (text : List Nat) : List Nat :=
  let e := findStringEnd data offset
  let origLen := e - offset
  let sep := sepRunFrom data e
  let fitted := adjustToOriginal (encode_utf16le text) origLen
  let d1 := spliceBytes data offset (offset + origLen) fitted
  if sep = [] then d1
  else spliceBytes d1 (offset + origLen) (offset + origLen + sep.length) sep

/-- The byte range owned by one in-place patch step: the original string
extent plus its captured separator run. -/
def patch_range_end (data : List Nat) (offset : Nat) : Nat :=
  findStringEnd data offset + (sepRunFrom data (findStringEnd data offset)).length

theorem encode_utf16le_even (text : List Nat) : 2 ∣ (encode_utf16le text).length := by
  induction text with
  | nil => exact ⟨0, rfl⟩
  | cons c cs ih =>
    rw [encode_utf16le]
    split
    · simp only [List.length_cons]
      omega
    · simp only [List.length_cons]
      omega

theorem findStringEnd_props (data : List Nat) (e : Nat) :
    e ≤ findStringEnd data e ∧ 2 ∣ (findStringEnd data e - e) ∧
      (e ≤ data.length → findStringEnd data e ≤ data.length) := by
  have H : ∀ n e, data.length - e ≤ n →
      e ≤ findStringEnd data e ∧ 2 ∣ (findStringEnd data e - e) ∧
        (e ≤ data.length → findStringEnd data e ≤ data.length) := by
    intro n
    induction n with
    | zero =>
      intro e he
      rw [findStringEnd]
      split
      · rename_i h
        exact absurd h (by omega)
      · exact ⟨le_refl e, by omega, fun h => h⟩
    | succ n ih =>
      intro e he
      rw [findStringEnd]
      split
      · rename_i h
        split
        · exact ⟨le_refl e, by omega, fun _ => by omega⟩
        · obtain ⟨h1, h2, h3⟩ := ih (e + 2) (by omega)
          have h4 := h3 (by omega)
          exact ⟨by omega, by omega, fun _ => h4⟩
      · exact ⟨le_refl e, by omega, fun h => h⟩
  exact H data.length e (by omega)

theorem sepRunFrom_length_le (data : List Nat) (e : Nat) :
    (sepRunFrom data e).length ≤ data.length - e := by
  have H : ∀ n e, data.length - e ≤ n →
      (sepRunFrom data e).length ≤ data.length - e := by
    intro n
    induction n with
    | zero =>
      intro e he
      rw [sepRunFrom]
      split
      · rename_i h
        exact absurd h (by omega)
      · simp
    | succ n ih =>
      intro e he
      rw [sepRunFrom]
      split
      · rename_i h
        split
        · have := ih (e + 2) (by omega)
          simp only [List.length_cons]
          omega
        · simp
      · simp
  exact H data.length e (by omega)

theorem length_flatten_replicate_pair (k a b : Nat) :
    ((List.replicate k ([a, b] : List Nat)).flatten).length = 2 * k := by
  induction k with
  | zero => rfl
  | succ k ih =>
    rw [List.replicate_succ, List.flatten_cons, List.length_append, ih]
    simp only [List.length_cons, List.length_nil]
    omega

theorem length_adjustToOriginal (t : List Nat) (n : Nat)
    (ht : 2 ∣ t.length) (hn : 2 ∣ n) :
    (adjustToOriginal t n).length = n := by
  rw [adjustToOriginal]
  split
  · rename_i h
    simp only [List.length_take]
    omega
  · split
    · rename_i h1 h2
      rw [List.length_append, length_flatten_replicate_pair]
      omega
    · rename_i h1 h2
      omega

theorem spliceBytes_nil_id (data : List Nat) (a : Nat) :
    spliceBytes data a a [] = data := by
  simp [spliceBytes]

/-- C3: the in-place replacement leaves the buffer length unchanged and
leaves every byte outside the owned byte range (the original string extent
plus its captured separator run) unchanged, for every image, offset and
replacement text. -/
theorem C3_inplace_frame (data : List Nat) (offset : Nat) (text : List Nat) :
    (patchAt data offset text).length = data.length ∧
    ∀ i : Nat, (i < offset ∨ patch_range_end data offset ≤ i) →
      (patchAt data offset text)[i]? = data[i]? := by
  by_cases hoff : offset ≤ data.length
  · obtain ⟨hge, hdvd, hle⟩ := findStringEnd_props data offset
    have he := hle hoff
    have hsep := sepRunFrom_length_le data (findStringEnd data offset)
    have htb := encode_utf16le_even text
    have hfit : (adjustToOriginal (encode_utf16le text)
        (findStringEnd data offset - offset)).length
        = findStringEnd data offset - offset :=
      length_adjustToOriginal _ _ htb hdvd
    simp only [patchAt, patch_range_end]
    have hb1 : offset + (findStringEnd data offset - offset)
        = offset + (adjustToOriginal (encode_utf16le text)
          (findStringEnd data offset - offset)).length := by
      rw [hfit]
    have hbound1 : offset + (findStringEnd data offset - offset) ≤ data.length := by
      omega
    have hd1len : (spliceBytes data offset (offset + (findStringEnd data offset - offset))
        (adjustToOriginal (encode_utf16le text) (findStringEnd data offset - offset))).length
        = data.length := length_spliceBytes _ _ _ _ hb1 hbound1
    split
    · rename_i hsepnil
      refine ⟨hd1len, fun i hi => ?_⟩
      apply getElem?_spliceBytes_frame _ _ _ _ _ hb1 hbound1
      rcases hi with h | h
      · exact Or.inl h
      · right
        rw [hsepnil] at h
        simp only [List.length_nil] at h
        omega
    · rename_i hsepnil
      have hbound2 : offset + (findStringEnd data offset - offset)
            + (sepRunFrom data (findStringEnd data offset)).length
          ≤ (spliceBytes data offset (offset + (findStringEnd data offset - offset))
            (adjustToOriginal (encode_utf16le text)
              (findStringEnd data offset - offset))).length := by
        rw [hd1len]
        omega
      constructor
      · rw [length_spliceBytes _ _ _ _ rfl hbound2, hd1len]
      · intro i hi
        rcases hi with h | h
        · rw [getElem?_spliceBytes_frame _ _ _ _ _ rfl hbound2 (Or.inl (by omega))]
          exact getElem?_spliceBytes_frame _ _ _ _ _ hb1 hbound1 (Or.inl h)
        · rw [getElem?_spliceBytes_frame _ _ _ _ _ rfl hbound2 (Or.inr (by omega))]
          exact getElem?_spliceBytes_frame _ _ _ _ _ hb1 hbound1 (Or.inr (by omega))
  · have he : findStringEnd data offset = offset := by
      rw [findStringEnd, dif_neg (by omega : ¬ offset + 1 < data.length)]
    have hseps : sepRunFrom data offset = [] := by
      rw [sepRunFrom, dif_neg (by omega : ¬ offset + 1 < data.length)]
    have hfit0 : (adjustToOriginal (encode_utf16le text) 0).length = 0 :=
      length_adjustToOriginal _ _ (encode_utf16le_even text) ⟨0, rfl⟩
    have hfnil : adjustToOriginal (encode_utf16le text) 0 = [] :=
      List.length_eq_zero.mp hfit0
    simp only [patchAt, patch_range_end, he, hseps, Nat.sub_self, hfnil, Nat.add_zero,
      spliceBytes_nil_id, if_pos]
    exact ⟨trivial, fun i _ => trivial⟩

/-- Witness for C3 at a concrete image, extent and text. -/
theorem C3_inplace_frame_witness :
    (patchAt [0x10, 0x00, 0x48, 0x00, 0x69, 0x00, 0x00, 0x00, 0x42, 0x00] 2 [0x41]).length
      = ([0x10, 0x00, 0x48, 0x00, 0x69, 0x00, 0x00, 0x00, 0x42, 0x00] : List Nat).length ∧
    (patchAt [0x10, 0x00, 0x48, 0x00, 0x69, 0x00, 0x00, 0x00, 0x42, 0x00] 2 [0x41])[0]?
      = ([0x10, 0x00, 0x48, 0x00, 0x69, 0x00, 0x00, 0x00, 0x42, 0x00] : List Nat)[0]? :=
  ⟨(C3_inplace_frame [0x10, 0x00, 0x48, 0x00, 0x69, 0x00, 0x00, 0x00, 0x42, 0x00] 2 [0x41]).1,
   (C3_inplace_frame [0x10, 0x00, 0x48, 0x00, 0x69, 0x00, 0x00, 0x00, 0x42, 0x00] 2 [0x41]).2
     0 (Or.inl (by decide))⟩

/-- C8: when the encoded replacement is shorter than the original extent the
written region is the encoded text followed by 0x20 0x00 space fill units up
to exactly the original byte length; when longer it is truncated to exactly
the original byte length; and the region written into the image is exactly
this fitted block. -/
theorem C8_fit_to_original (data : List Nat) (offset : Nat) (text : List Nat) :
    ((encode_utf16le text).length < findStringEnd data offset - offset →
      adjustToOriginal (encode_utf16le text) (findStringEnd data offset - offset)
        = encode_utf16le text
          ++ (List.replicate (((findStringEnd data offset - offset)
              - (encode_utf16le text).length) / 2) ([0x20, 0x00] : List Nat)).flatten ∧
      (adjustToOriginal (encode_utf16le text) (findStringEnd data offset - offset)).length
        = findStringEnd data offset - offset) ∧
    (findStringEnd data offset - offset < (encode_utf16le text).length →
      adjustToOriginal (encode_utf16le text) (findStringEnd data offset - offset)
        = (encode_utf16le text).take (findStringEnd data offset - offset) ∧
      (adjustToOriginal (encode_utf16le text) (findStringEnd data offset - offset)).length
        = findStringEnd data offset - offset) ∧
    (offset ≤ data.length →
      sliceAt (patchAt data offset text) offset (findStringEnd data offset - offset)
        = adjustToOriginal (encode_utf16le text) (findStringEnd data offset - offset)) := by
  obtain ⟨hge, hdvd, hle⟩ := findStringEnd_props data offset
  have htb := encode_utf16le_even text
  have hfit : (adjustToOriginal (encode_utf16le text)
      (findStringEnd data offset - offset)).length
      = findStringEnd data offset - offset :=
    length_adjustToOriginal _ _ htb hdvd
  refine ⟨?_, ?_, ?_⟩
  · intro h
    refine ⟨?_, hfit⟩
    rw [adjustToOriginal, if_neg (by omega), if_pos h]
  · intro h
    refine ⟨?_, hfit⟩
    rw [adjustToOriginal, if_pos h]
  · intro hoff
    have he := hle hoff
    have hsep := sepRunFrom_length_le data (findStringEnd data offset)
    simp only [patchAt]
    have hb1 : offset + (findStringEnd data offset - offset)
        = offset + (adjustToOriginal (encode_utf16le text)
          (findStringEnd data offset - offset)).length := by
      rw [hfit]
    have hbound1 : offset + (findStringEnd data offset - offset) ≤ data.length := by
      omega
    have hd1len : (spliceBytes data offset (offset + (findStringEnd data offset - offset))
        (adjustToOriginal (encode_utf16le text) (findStringEnd data offset - offset))).length
        = data.length := length_spliceBytes _ _ _ _ hb1 hbound1
    have hself := sliceAt_spliceBytes_self data offset
        (offset + (findStringEnd data offset - offset))
        (adjustToOriginal (encode_utf16le text) (findStringEnd data offset - offset))
        hb1 hbound1
    rw [hfit] at hself
    split
    · exact hself
    · rename_i hsepnil
      have hbound2 : offset + (findStringEnd data offset - offset)
            + (sepRunFrom data (findStringEnd data offset)).length
          ≤ (spliceBytes data offset (offset + (findStringEnd data offset - offset))
            (adjustToOriginal (encode_utf16le text)
              (findStringEnd data offset - offset))).length := by
        rw [hd1len]
        omega
      rw [sliceAt_spliceBytes_frame _ _ _ _ _ _ rfl hbound2 (Or.inl (le_refl _))]
      exact hself

/-- Witness for C8 at a concrete image, extent and short replacement. -/
theorem C8_fit_to_original_witness :
    (adjustToOriginal (encode_utf16le [0x41])
        (findStringEnd [0x10, 0x00, 0x48, 0x00, 0x69, 0x00, 0x00, 0x00, 0x42, 0x00] 2 - 2)
      = encode_utf16le [0x41]
        ++ (List.replicate (((findStringEnd
              [0x10, 0x00, 0x48, 0x00, 0x69, 0x00, 0x00, 0x00, 0x42, 0x00] 2 - 2)
            - (encode_utf16le [0x41]).length) / 2) ([0x20, 0x00] : List Nat)).flatten ∧
      (adjustToOriginal (encode_utf16le [0x41])
        (findStringEnd [0x10, 0x00, 0x48, 0x00, 0x69, 0x00, 0x00, 0x00, 0x42, 0x00] 2 - 2)).length
        = findStringEnd [0x10, 0x00, 0x48, 0x00, 0x69, 0x00, 0x00, 0x00, 0x42, 0x00] 2 - 2) ∧
    sliceAt (patchAt [0x10, 0x00, 0x48, 0x00, 0x69, 0x00, 0x00, 0x00, 0x42, 0x00] 2 [0x41]) 2
        (findStringEnd [0x10, 0x00, 0x48, 0x00, 0x69, 0x00, 0x00, 0x00, 0x42, 0x00] 2 - 2)
      = adjustToOriginal (encode_utf16le [0x41])
        (findStringEnd [0x10, 0x00, 0x48, 0x00, 0x69, 0x00, 0x00, 0x00, 0x42, 0x00] 2 - 2) := by
  have h6 : findStringEnd [0x10, 0x00, 0x48, 0x00, 0x69, 0x00, 0x00, 0x00, 0x42, 0x00] 2 = 6 := by
    rw [findStringEnd, dif_pos (by decide), if_neg (by decide)]
    rw [findStringEnd, dif_pos (by decide), if_neg (by decide)]
    rw [findStringEnd, dif_pos (by decide), if_pos (by decide)]
  refine ⟨(C8_fit_to_original [0x10, 0x00, 0x48, 0x00, 0x69, 0x00, 0x00, 0x00, 0x42, 0x00]
      2 [0x41]).1 ?_,
    (C8_fit_to_original [0x10, 0x00, 0x48, 0x00, 0x69, 0x00, 0x00, 0x00, 0x42, 0x00]
      2 [0x41]).2.2 (by decide)⟩
  rw [h6]
  decide

/-- C5 fails as stated: for the entry below, one owning pointer is in range
and one is out of range.  The engine still rewrites the first pointer and
still appends the payload (the image is changed by the entry) while the
out-of-range pointer is skipped and its location never receives the new
address — a half-applied entry, not an all-or-nothing outcome, and nothing
in the returned state records the failure. -/
theorem C5_counterexample :
    (processEntry (List.replicate 8 0) 8 [0x100000, 0x200000] [0xAA]).1
      = [0x08, 0x00, 0x10, 0x00, 0, 0, 0, 0, 0xAA] ∧
    (processEntry (List.replicate 8 0) 8 [0x100000, 0x200000] [0xAA]).1.length
      = (List.replicate 8 (0 : Nat)).length + 1 ∧
    rewritePointer (List.replicate 8 0) 0x100008 0x200000 = List.replicate 8 0 ∧
    sliceAt (processEntry (List.replicate 8 0) 8 [0x100000, 0x200000] [0xAA]).1
      (0x200000 - BASE_ADDR) 4 ≠ le32 0x100008 := by
  refine ⟨by decide, by decide, by decide, by decide⟩

/-- C5 amended: the engine is not transactional per entry: an out-of-range
pointer location is skipped individually (the rewrite is the identity on
the buffer) while the payload block of the same entry is still appended and
the buffer still grows by the block length, so a failing pointer leaves the
entry half applied rather than rolled back. -/
theorem C5_per_pointer_skip (data : List Nat) (cursor : Nat)
    (ptrOffsets block : List Nat) (addrVirt : Nat)
    (hout : (addrVirt : Int) - (BASE_ADDR : Int) < 0 ∨
      (addrVirt : Int) - (BASE_ADDR : Int) + 4 > data.length) :
    rewritePointer data (BASE_ADDR + cursor) addrVirt = data ∧
    (processEntry data cursor ptrOffsets block).1.length
      = data.length + block.length ∧
    (processEntry data cursor ptrOffsets block).1.drop data.length = block := by
  have hlen := length_foldl_rewritePointer ptrOffsets data (BASE_ADDR + cursor)
  refine ⟨?_, ?_, ?_⟩
  · simp only [rewritePointer]
    rw [if_pos hout]
  · simp only [processEntry, List.length_append, hlen]
  · simp only [processEntry]
    exact List.drop_left' hlen

/-- Witness for the amended C5 at a concrete out-of-range pointer. -/
theorem C5_per_pointer_skip_witness :
    rewritePointer [0, 0, 0, 0] (BASE_ADDR + 0) 0x200000 = [0, 0, 0, 0] ∧
    (processEntry [0, 0, 0, 0] 0 [0x200000] [7]).1.length
      = ([0, 0, 0, 0] : List Nat).length + ([7] : List Nat).length ∧
    (processEntry [0, 0, 0, 0] 0 [0x200000] [7]).1.drop
      ([0, 0, 0, 0] : List Nat).length = [7] :=
  C5_per_pointer_skip [0, 0, 0, 0] 0 [0x200000] [7] 0x200000 (by decide)

theorem valid_target_iff (printable : Nat → Bool) (data : List Nat) (val : Nat) :
    valid_target printable data val = true ↔
      2 ≤ val - BASE_ADDR ∧ sep_pair_at data (val - BASE_ADDR - 2) = true ∧
        decodes_printable printable data (val - BASE_ADDR) = true := by
  simp only [valid_target]
  by_cases h : val - BASE_ADDR < 2 ∨ sep_pair_at data (val - BASE_ADDR - 2) = false
  · rw [if_pos h]
    constructor
    · intro hf
      exact absurd hf (by simp)
    · rintro ⟨h1, h2, h3⟩
      rcases h with h | h
      · omega
      · rw [h2] at h
        exact absurd h (by simp)
  · rw [if_neg h]
    push_neg at h
    constructor
    · intro h3
      exact ⟨by omega, Bool.ne_false_iff.mp h.2, h3⟩
    · intro h3
      exact h3.2.2

theorem valid_vals_eq_filter (printable : Nat → Bool) (data : List Nat) (vals : List Nat) :
    valid_vals printable data vals = vals.filter (valid_target printable data) := by
  induction vals with
  | nil => rfl
  | cons v rest ih =>
    rw [valid_vals, List.filter_cons, ih]

theorem filter_drop_invalid (printable : Nat → Bool) (data : List Nat)
    (vals : List Nat) (val : Nat) (hval : valid_target printable data val = false) :
    vals.filter (valid_target printable data)
      = (vals.filter (fun u => decide (u ≠ val))).filter (valid_target printable data) := by
  induction vals with
  | nil => rfl
  | cons v rest ih =>
    by_cases hv : v = val
    · subst hv
      rw [List.filter_cons, List.filter_cons]
      rw [if_neg (by rw [hval]; simp), if_neg (by simp)]
      exact ih
    · by_cases hp : valid_target printable data v = true
      · rw [List.filter_cons, if_pos hp, List.filter_cons, if_pos (decide_eq_true hv),
          List.filter_cons, if_pos hp, ih]
      · rw [List.filter_cons, if_neg hp, List.filter_cons, if_pos (decide_eq_true hv),
          List.filter_cons, if_neg hp, ih]

/-- C9: a target address survives extraction exactly when the two bytes
before its offset form a separator pair (with at least two bytes available)
and the two bytes at its offset decode to a printable character unit; the
validity loop is the corresponding filter, and a failing target is silently
omitted, so the extent boundaries are computed as if the failing target had
never been in the table. -/
theorem C9_record_validity (printable : Nat → Bool) (data : List Nat) (vals : List Nat) :
    valid_vals printable data vals = vals.filter (valid_target printable data) ∧
    (∀ val ∈ vals,
      (val ∈ valid_vals printable data vals ↔
        2 ≤ val - BASE_ADDR ∧ sep_pair_at data (val - BASE_ADDR - 2) = true ∧
          decodes_printable printable data (val - BASE_ADDR) = true)) ∧
    (∀ val : Nat, valid_target printable data val = false →
      extents (valid_vals printable data vals)
        = extents (valid_vals printable data (vals.filter (fun u => decide (u ≠ val))))) := by
  refine ⟨valid_vals_eq_filter printable data vals, ?_, ?_⟩
  · intro val hval
    rw [valid_vals_eq_filter, ← valid_target_iff printable data val]
    constructor
    · intro h
      exact (List.mem_filter.mp h).2
    · intro h
      exact List.mem_filter.mpr ⟨hval, h⟩
  · intro val hval
    rw [valid_vals_eq_filter, valid_vals_eq_filter,
      filter_drop_invalid printable data vals val hval]

/-- A concrete printability table for witnesses: ASCII graphic characters
and space. -/
def ascii_printable (u : Nat) : Bool :=
  decide (0x20 ≤ u ∧ u < 0x7F)

/-- Witness for C9 at a concrete image and pointer table: the target at
offset 4 survives, the target at offset 2 decodes to an unprintable NUL unit
and is dropped from the extent boundaries. -/
theorem C9_record_validity_witness :
    (0x100004 ∈ valid_vals ascii_printable [0, 0, 0, 0, 0x48, 0] [0x100004, 0x100002] ↔
      2 ≤ 0x100004 - BASE_ADDR ∧
        sep_pair_at [0, 0, 0, 0, 0x48, 0] (0x100004 - BASE_ADDR - 2) = true ∧
        decodes_printable ascii_printable [0, 0, 0, 0, 0x48, 0] (0x100004 - BASE_ADDR)
          = true) ∧
    extents (valid_vals ascii_printable [0, 0, 0, 0, 0x48, 0] [0x100004, 0x100002])
      = extents (valid_vals ascii_printable [0, 0, 0, 0, 0x48, 0]
          ([0x100004, 0x100002].filter (fun u => decide (u ≠ 0x100002)))) :=
  ⟨(C9_record_validity ascii_printable [0, 0, 0, 0, 0x48, 0]
      [0x100004, 0x100002]).2.1 0x100004 (by decide),
   (C9_record_validity ascii_printable [0, 0, 0, 0, 0x48, 0]
      [0x100004, 0x100002]).2.2 0x100002 (by decide)⟩

instance : IsTotal (Nat × List Nat) (fun p q => p.1 ≤ q.1) :=
  ⟨fun a b => Nat.le_total a.1 b.1⟩

instance : IsTrans (Nat × List Nat) (fun p q => p.1 ≤ q.1) :=
  ⟨fun _ _ _ h1 h2 => Nat.le_trans h1 h2⟩

theorem insertPtr_keys (m : List (Nat × List Nat)) (val off : Nat) :
    ∀ x : Nat, x ∈ (insertPtr m val off).map Prod.fst ↔ x ∈ m.map Prod.fst ∨ x = val := by
  induction m with
  | nil =>
    intro x
    simp [insertPtr]
  | cons p rest ih =>
    obtain ⟨v, offs⟩ := p
    intro x
    rw [insertPtr]
    by_cases hv : v = val
    · subst hv
      rw [if_pos rfl]
      simp only [List.map_cons, List.mem_cons]
      constructor
      · rintro (h | h)
        · exact Or.inr h
        · exact Or.inl (Or.inr h)
      · rintro ((h | h) | h)
        · exact Or.inl h
        · exact Or.inr h
        · exact Or.inl h
    · rw [if_neg hv]
      simp only [List.map_cons, List.mem_cons, ih x]
      tauto

theorem insertPtr_keys_nodup (m : List (Nat × List Nat)) (val off : Nat)
    (h : (m.map Prod.fst).Nodup) : ((insertPtr m val off).map Prod.fst).Nodup := by
  induction m with
  | nil =>
    simp [insertPtr]
  | cons p rest ih =>
    obtain ⟨v, offs⟩ := p
    rw [insertPtr]
    simp only [List.map_cons, List.nodup_cons] at h
    by_cases hv : v = val
    · subst hv
      rw [if_pos rfl]
      simp only [List.map_cons, List.nodup_cons]
      exact h
    · rw [if_neg hv]
      simp only [List.map_cons, List.nodup_cons]
      refine ⟨?_, ih h.2⟩
      rw [insertPtr_keys rest val off v]
      rintro (hmem | hmem)
      · exact h.1 hmem
      · exact hv hmem

theorem buildPtrMap_invariant (rows : List (Nat × Nat)) :
    ((buildPtrMap rows).map Prod.fst).Nodup ∧
      ∀ e ∈ buildPtrMap rows, PATCH_START ≤ e.1 ∧ e.1 < PATCH_END := by
  have H : ∀ (l : List (Nat × Nat)) (m : List (Nat × List Nat)),
      (m.map Prod.fst).Nodup → (∀ e ∈ m, PATCH_START ≤ e.1 ∧ e.1 < PATCH_END) →
      ((l.foldl (fun m row =>
          if PATCH_START ≤ row.2 ∧ row.2 < PATCH_END then insertPtr m row.2 row.1 else m)
          m).map Prod.fst).Nodup ∧
        ∀ e ∈ l.foldl (fun m row =>
          if PATCH_START ≤ row.2 ∧ row.2 < PATCH_END then insertPtr m row.2 row.1 else m) m,
          PATCH_START ≤ e.1 ∧ e.1 < PATCH_END := by
    intro l
    induction l with
    | nil => exact fun m hn hr => ⟨hn, hr⟩
    | cons r rest ih =>
      intro m hn hr
      rw [List.foldl_cons]
      by_cases hrow : PATCH_START ≤ r.2 ∧ r.2 < PATCH_END
      · rw [if_pos hrow]
        refine ih _ (insertPtr_keys_nodup m r.2 r.1 hn) ?_
        intro e he
        have hk : e.1 ∈ (insertPtr m r.2 r.1).map Prod.fst := List.mem_map_of_mem _ he
        rw [insertPtr_keys m r.2 r.1 e.1] at hk
        rcases hk with hk | hk
        · obtain ⟨e', he', hfst⟩ := List.mem_map.mp hk
          have := hr e' he'
          omega
        · omega
      · rw [if_neg hrow]
        exact ih m hn hr
  exact H rows [] (by simp) (by simp)

theorem buildPtrMap_filter (rows : List (Nat × Nat)) :
    buildPtrMap rows
      = buildPtrMap (rows.filter (fun r => decide (PATCH_START ≤ r.2 ∧ r.2 < PATCH_END))) := by
  have H : ∀ (l : List (Nat × Nat)) (m : List (Nat × List Nat)),
      l.foldl (fun m row =>
          if PATCH_START ≤ row.2 ∧ row.2 < PATCH_END then insertPtr m row.2 row.1 else m) m
        = (l.filter (fun r => decide (PATCH_START ≤ r.2 ∧ r.2 < PATCH_END))).foldl
          (fun m row =>
            if PATCH_START ≤ row.2 ∧ row.2 < PATCH_END then insertPtr m row.2 row.1 else m)
          m := by
    intro l
    induction l with
    | nil => intro m; rfl
    | cons r rest ih =>
      intro m
      rw [List.foldl_cons, List.filter_cons]
      by_cases hrow : PATCH_START ≤ r.2 ∧ r.2 < PATCH_END
      · rw [if_pos hrow, if_pos (decide_eq_true hrow), List.foldl_cons, if_pos hrow]
        exact ih _
      · rw [if_neg hrow, if_neg (by simpa using hrow)]
        exact ih m
  exact H rows []

theorem load_keys_eq (rows : List (Nat × Nat)) :
    (load_and_group_pointers rows).map Prod.fst
      = (List.insertionSort (fun p q => p.1 ≤ q.1) (buildPtrMap rows)).map Prod.fst := by
  rw [load_and_group_pointers, List.map_map]
  rfl

theorem load_keys_pairwise_lt (rows : List (Nat × Nat)) :
    List.Pairwise (· < ·) ((load_and_group_pointers rows).map Prod.fst) := by
  have hsorted := List.sorted_insertionSort (fun p q : Nat × List Nat => p.1 ≤ q.1)
    (buildPtrMap rows)
  have hperm := List.perm_insertionSort (fun p q : Nat × List Nat => p.1 ≤ q.1)
    (buildPtrMap rows)
  have hnodup : (((List.insertionSort (fun p q : Nat × List Nat => p.1 ≤ q.1)
      (buildPtrMap rows))).map Prod.fst).Nodup :=
    ((hperm.map Prod.fst).nodup_iff).mpr (buildPtrMap_invariant rows).1
  have hle : List.Pairwise (· ≤ ·) ((List.insertionSort
      (fun p q : Nat × List Nat => p.1 ≤ q.1) (buildPtrMap rows)).map Prod.fst) :=
    List.pairwise_map.mpr hsorted
  rw [load_keys_eq]
  have hand := hle.and hnodup
  exact hand.imp (fun h => lt_of_le_of_ne h.1 h.2)

theorem extents_pos (vals : List Nat) (hp : List.Pairwise (· < ·) vals)
    (hr : ∀ v ∈ vals, PATCH_START ≤ v ∧ v < PATCH_END) :
    ∀ ext ∈ extents vals, ext.1 < ext.2 := by
  have hB : BASE_ADDR < PATCH_START := by decide
  induction vals with
  | nil =>
    intro ext hext
    simp [extents] at hext
  | cons v rest ih =>
    cases rest with
    | nil =>
      intro ext hext
      simp only [extents, List.mem_singleton] at hext
      subst hext
      have := hr v (List.mem_cons_self v [])
      simp only []
      omega
    | cons w rest' =>
      intro ext hext
      rw [extents] at hext
      rcases List.mem_cons.mp hext with rfl | hext
      · have hv := hr v (List.mem_cons_self _ _)
        have hvw : v < w := List.rel_of_pairwise_cons hp (List.mem_cons_self w rest')
        simp only []
        omega
      · exact ih (List.Pairwise.sublist (List.sublist_cons_self v (w :: rest')) hp)
          (fun u hu => hr u (List.mem_cons_of_mem _ hu)) ext hext

/-- C6 fails as stated: pointer-table construction never fails.  A record
whose target address is out of range is silently dropped: construction on a
table holding one in-range and one out-of-range record returns an ordinary
grouped table in which the out-of-range address is absent, with no error of
any kind raised. -/
theorem C6_counterexample :
    load_and_group_pointers [(0x10, 0x949720), (0x20, 0x949700)]
      = [(0x949720, [0x10])] ∧
    ∀ e ∈ load_and_group_pointers [(0x10, 0x949720), (0x20, 0x949700)],
      e.1 ≠ 0x949700 := by
  refine ⟨by decide, by decide⟩

/-- C6 amended: pointer-table construction is total and raises nothing.
A record whose resolved address is out of range is silently dropped (the
result is the same as if the record had been filtered away), every surviving
entry's address is in range, and the extents derived from the surviving
table always have positive length, so a zero- or negative-length extent is
impossible rather than an error condition. -/
theorem C6_table_construction (rows : List (Nat × Nat)) :
    load_and_group_pointers rows
      = load_and_group_pointers
          (rows.filter (fun r => decide (PATCH_START ≤ r.2 ∧ r.2 < PATCH_END))) ∧
    (∀ e ∈ load_and_group_pointers rows, PATCH_START ≤ e.1 ∧ e.1 < PATCH_END) ∧
    (∀ ext ∈ extents ((load_and_group_pointers rows).map Prod.fst), ext.1 < ext.2) := by
  have hrange : ∀ e ∈ load_and_group_pointers rows, PATCH_START ≤ e.1 ∧ e.1 < PATCH_END := by
    intro e he
    rw [load_and_group_pointers] at he
    obtain ⟨e', he', rfl⟩ := List.mem_map.mp he
    have he'' : e' ∈ buildPtrMap rows :=
      (List.perm_insertionSort (fun p q : Nat × List Nat => p.1 ≤ q.1)
        (buildPtrMap rows)).mem_iff.mp he'
    exact (buildPtrMap_invariant rows).2 e' he''
  refine ⟨?_, hrange, ?_⟩
  · rw [load_and_group_pointers, load_and_group_pointers, ← buildPtrMap_filter]
  · apply extents_pos _ (load_keys_pairwise_lt rows)
    intro v hv
    obtain ⟨e, he, rfl⟩ := List.mem_map.mp hv
    exact hrange e he

/-- Witness for the amended C6 at a concrete table with one out-of-range
record. -/
theorem C6_table_construction_witness :
    load_and_group_pointers [(0x10, 0x949720), (0x20, 0x949700)]
      = load_and_group_pointers
          ([(0x10, 0x949720), (0x20, 0x949700)].filter
            (fun r => decide (PATCH_START ≤ r.2 ∧ r.2 < PATCH_END))) :=
  (C6_table_construction [(0x10, 0x949720), (0x20, 0x949700)]).1
